import Mathlib

/-!
Verification of the fixtures-scheduling core (`src/fmodel.py`).

The embedding translates the Python source into Lean:

* `Team`, `Fixture`, `ScheduledFixture`, `Parameters` mirror the frozen
  dataclasses.  Python `datetime.date` values are represented by their
  ordinal day number as an `Int`; the only operation the source performs
  on dates is `(d2 - d1).days`, which becomes `Int` subtraction.
  Python mappings (`dict`) are represented by association lists whose
  lookup returns the value at the first matching key; `m[k]` raising
  `KeyError` becomes an `Option`/`Except` failure, and `m.get(k, [])`
  becomes a lookup with default `[]`.
* `date_windows` is a direct translation of the windowing function:
  sort the dates ascending, build the forward-anchored window of each
  position (the inner `j` loop with `break` is `takeWhile` on the tail),
  sort all windows by descending size (Python `list.sort` is stable,
  matched by `List.mergeSort`), then keep a window only if it is not a
  subset of an already kept window.
* `solve` builds one boolean variable per eligible (fixture, date)
  candidate.  The creation sequence of variables is the list
  `buildVars params` (a `KeyError` on a missing home-dates club entry
  becomes `Except.error club`); an assignment of the solver is a
  function `Fin cands.length → Bool`; the three constraint families
  added by `solve` are the proposition `Satisfies`, where the sum of a
  group of variables is expressed as the sum over all variable indices
  of the number of occurrences of that variable in the group (a
  variable occurs twice in a team's per-date list only when the same
  team is both home and away).  The external CP-SAT engine is modelled
  per the spec as a complete oracle: `solve` can return `r` exactly
  when some assignment satisfies all constraints and `r` is the
  extraction of its true variables (`solveReturns`), and raises
  `No solution found` exactly when no assignment satisfies them
  (`solveUnsat`).  Extraction walks the distinct (fixture, date) keys
  in first-creation order, emitting one `ScheduledFixture` per true
  variable of the key, exactly as the source loop over
  `vars_by_fixture_date.items()` does.
-/

namespace Fixtures

/-- `Team` dataclass: `(division, club, index)`, value equality. -/
structure Team where
  division : Int
  club : String
  index : Int
deriving DecidableEq, Repr

instance : Inhabited Team := ⟨⟨0, "", 0⟩⟩

/-- `Fixture` dataclass: ordered (home, away) pair. -/
structure Fixture where
  home_team : Team
  away_team : Team
deriving DecidableEq, Repr

/-- `ScheduledFixture` dataclass: a fixture bound to one date. -/
structure ScheduledFixture where
  fixture : Fixture
  date : Int
deriving DecidableEq, Repr

/-- `Parameters` dataclass.  The two mappings are association lists
(club name to list of dates). -/
structure Parameters where
  teams : List Team
  home_dates : List (String × List Int)
  unavailable_away_dates : List (String × List Int)
  min_gap_days : Int := 7
  max_concurrent_home_matches : Int := 2

/-- Dictionary lookup `m[k]`: value at the first matching key, `none`
when the key is absent (Python raises `KeyError`). -/
def mapGet (m : List (String × List Int)) (k : String) : Option (List Int) :=
  (m.find? (fun p => p.1 == k)).map Prod.snd

/-- Dictionary lookup with default, `m.get(k, [])`. -/
def mapGetD (m : List (String × List Int)) (k : String) : List Int :=
  (mapGet m k).getD []

/-! ### The window partitioner `date_windows` -/

/-- The forward-anchored candidate windows: for each position of the
(ascending) sorted date list, the window holds the anchor and every
later date within `window_days` of it.  The source's inner loop adds
later dates until the first one beyond the window (`break`), which on a
sorted list is `takeWhile`. -/
def windowsFrom (window_days : Int) : List Int → List (Finset Int)
  | [] => []
  | d :: rest =>
      insert d ((rest.takeWhile (fun x => decide (x - d ≤ window_days))).toFinset) ::
        windowsFrom window_days rest

/-- The subset filter at the end of `date_windows`: walk the candidate
windows (already sorted by descending size), keeping a window only when
it is not contained in an already kept window. -/
def filterMaximal (acc : List (Finset Int)) : List (Finset Int) → List (Finset Int)
  | [] => acc
  | w :: ws =>
      if acc.any (fun kept => decide (w ⊆ kept)) then filterMaximal acc ws
      else filterMaximal (acc ++ [w]) ws

/-- `date_windows` from `src/fmodel.py`: maximal subsets of the given
dates that fall within the window size. -/
def date_windows (dates : List Int) (window_days : Int) : List (Finset Int) :=
  let sorted := dates.mergeSort (fun a b => decide (a ≤ b))
  let all_windows := windowsFrom window_days sorted
  filterMaximal [] (all_windows.mergeSort (fun a b => decide (b.card ≤ a.card)))

/-! ### Basic lemmas about the window partitioner -/

theorem mem_takeWhile_of_sorted {l : List Int} (hl : l.Pairwise (· ≤ ·))
    {p : Int → Bool} (hp : ∀ x y, x ≤ y → p y = true → p x = true)
    {x : Int} (hx : x ∈ l) (hpx : p x = true) : x ∈ l.takeWhile p := by
  induction l with
  | nil => cases hx
  | cons a t ih =>
      have ha : p a = true := by
        rcases List.mem_cons.mp hx with rfl | hxt
        · exact hpx
        · exact hp a x ((List.pairwise_cons.mp hl).1 x hxt) hpx
      rw [List.takeWhile_cons_of_pos ha]
      rcases List.mem_cons.mp hx with rfl | hxt
      · exact List.mem_cons_self _ _
      · exact List.mem_cons_of_mem _ (ih (List.pairwise_cons.mp hl).2 hxt)

/-- Every date of the input list lies in one of its candidate windows. -/
theorem windowsFrom_covers (wd : Int) {l : List Int} {d : Int} (hd : d ∈ l) :
    ∃ w ∈ windowsFrom wd l, d ∈ w := by
  induction l with
  | nil => cases hd
  | cons a t ih =>
      rcases List.mem_cons.mp hd with rfl | hdt
      · exact ⟨_, List.mem_cons_self _ _, Finset.mem_insert_self _ _⟩
      · obtain ⟨w, hw, hdw⟩ := ih hdt
        exact ⟨w, List.mem_cons_of_mem _ hw, hdw⟩

/-- Two dates of a sorted list separated by at most `wd` lie together in
the candidate window anchored at the earlier one. -/
theorem windowsFrom_pair {wd : Int} {l : List Int} (hl : l.Pairwise (· ≤ ·))
    {d1 d2 : Int} (h1 : d1 ∈ l) (h2 : d2 ∈ l) (hle : d1 ≤ d2) (hsep : d2 - d1 ≤ wd) :
    ∃ w ∈ windowsFrom wd l, d1 ∈ w ∧ d2 ∈ w := by
  induction l with
  | nil => cases h1
  | cons a t ih =>
      rcases List.mem_cons.mp h1 with rfl | h1t
      · refine ⟨_, List.mem_cons_self _ _, Finset.mem_insert_self _ _, ?_⟩
        by_cases hda : d2 = d1
        · subst hda; exact Finset.mem_insert_self _ _
        · have h2t : d2 ∈ t := by
            rcases List.mem_cons.mp h2 with rfl | h2t
            · exact absurd rfl hda
            · exact h2t
          refine Finset.mem_insert_of_mem (List.mem_toFinset.mpr ?_)
          refine mem_takeWhile_of_sorted (List.pairwise_cons.mp hl).2 ?_ h2t
            (by simpa using hsep)
          intro x y hxy hy
          simp only [decide_eq_true_eq] at hy ⊢
          omega
      · have h2t : d2 ∈ t := by
          rcases List.mem_cons.mp h2 with rfl | h2t
          · have hd1 : d2 ≤ d1 := (List.pairwise_cons.mp hl).1 d1 h1t
            have : d1 = d2 := le_antisymm hle hd1
            subst this; exact h1t
          · exact h2t
        obtain ⟨w, hw, hw1, hw2⟩ := ih (List.pairwise_cons.mp hl).2 h1t h2t
        exact ⟨w, List.mem_cons_of_mem _ hw, hw1, hw2⟩

/-- Every member of a candidate window of a sorted list lies between the
anchor and the anchor plus `wd` (for the anchor itself, when `0 ≤ wd`);
stated directly as: any two members are at most `wd` apart. -/
theorem windowsFrom_span {wd : Int} (hwd : 0 ≤ wd) {l : List Int}
    (hl : l.Pairwise (· ≤ ·)) {w : Finset Int} (hw : w ∈ windowsFrom wd l)
    {x y : Int} (hx : x ∈ w) (hy : y ∈ w) : x - y ≤ wd := by
  induction l with
  | nil => cases hw
  | cons a t ih =>
      rcases List.mem_cons.mp hw with rfl | hwt
      · have bound : ∀ z ∈ insert a ((t.takeWhile
            (fun x => decide (x - a ≤ wd))).toFinset), a ≤ z ∧ z - a ≤ wd := by
          intro z hz
          rcases Finset.mem_insert.mp hz with rfl | hz
          · exact ⟨le_refl _, by omega⟩
          · have hz' := List.mem_toFinset.mp hz
            have hzt : z ∈ t := (List.takeWhile_sublist _).subset hz'
            have hpz := List.mem_takeWhile_imp hz'
            simp only [decide_eq_true_eq] at hpz
            exact ⟨(List.pairwise_cons.mp hl).1 z hzt, hpz⟩
        obtain ⟨hax, hxa⟩ := bound x hx
        obtain ⟨hay, hya⟩ := bound y hy
        omega
      · exact ih (List.pairwise_cons.mp hl).2 hwt

/-- Members of the accumulator survive the subset filter. -/
theorem filterMaximal_mem_acc {acc ws : List (Finset Int)} {w : Finset Int}
    (hw : w ∈ acc) : w ∈ filterMaximal acc ws := by
  induction ws generalizing acc with
  | nil => exact hw
  | cons v vs ih =>
      unfold filterMaximal
      split
      · exact ih hw
      · exact ih (List.mem_append_left _ hw)

/-- Every filtered-out window is contained in some kept window; members
of the accumulator count as kept. -/
theorem filterMaximal_covers (acc : List (Finset Int)) {ws : List (Finset Int)}
    {w : Finset Int} (hw : w ∈ ws) : ∃ k ∈ filterMaximal acc ws, w ⊆ k := by
  induction ws generalizing acc with
  | nil => cases hw
  | cons v vs ih =>
      unfold filterMaximal
      rcases List.mem_cons.mp hw with rfl | hwvs
      · split
        · next hany =>
            obtain ⟨k, hk, hsub⟩ := List.any_eq_true.mp hany
            exact ⟨k, filterMaximal_mem_acc hk, of_decide_eq_true hsub⟩
        · exact ⟨w, filterMaximal_mem_acc (List.mem_append_right _
            (List.mem_singleton.mpr rfl)), Finset.Subset.refl w⟩
      · split
        · exact ih acc hwvs
        · exact ih (acc ++ [v]) hwvs

/-- Every window kept by the subset filter is one of the candidates (or
came from the accumulator). -/
theorem filterMaximal_subset {acc ws : List (Finset Int)} {w : Finset Int}
    (hw : w ∈ filterMaximal acc ws) : w ∈ acc ∨ w ∈ ws := by
  induction ws generalizing acc with
  | nil => exact Or.inl hw
  | cons v vs ih =>
      unfold filterMaximal at hw
      split at hw
      · rcases ih hw with h | h
        · exact Or.inl h
        · exact Or.inr (List.mem_cons_of_mem _ h)
      · rcases ih hw with h | h
        · rcases List.mem_append.mp h with h' | h'
          · exact Or.inl h'
          · exact Or.inr (List.mem_cons.mpr (Or.inl (List.mem_singleton.mp h')))
        · exact Or.inr (List.mem_cons_of_mem _ h)

/-- The relation "neither is a subset of the other". -/
def NoMutualSubset (a b : Finset Int) : Prop := ¬ a ⊆ b ∧ ¬ b ⊆ a

/-- The subset filter keeps a subset-free family, provided its input is
sorted by descending size (which `date_windows` establishes before
filtering). -/
theorem filterMaximal_pairwise {acc ws : List (Finset Int)}
    (hsorted : (acc ++ ws).Pairwise (fun a b => b.card ≤ a.card))
    (hacc : acc.Pairwise NoMutualSubset) :
    (filterMaximal acc ws).Pairwise NoMutualSubset := by
  induction ws generalizing acc with
  | nil => exact hacc
  | cons v vs ih =>
      unfold filterMaximal
      split
      · next hany =>
          refine ih ?_ hacc
          exact List.Pairwise.sublist
            (List.Sublist.append_left (List.sublist_cons_self v vs) acc) hsorted
      · next hany =>
          have hnotsub : ∀ k ∈ acc, ¬ v ⊆ k := by
            intro k hk hsub
            exact hany (List.any_eq_true.mpr ⟨k, hk, decide_eq_true hsub⟩)
          refine ih ?_ ?_
          · have : acc ++ [v] ++ vs = acc ++ v :: vs := by simp
            rw [this]; exact hsorted
          · rw [List.pairwise_append]
            refine ⟨hacc, List.pairwise_singleton _ _, ?_⟩
            intro a ha b hb
            rw [List.mem_singleton] at hb; subst hb
            refine ⟨?_, hnotsub a ha⟩
            intro hav
            have hcard : b.card ≤ a.card := by
              have := (List.pairwise_append.mp hsorted).2.2 a ha b
                (List.mem_cons_self _ _)
              exact this
            have : a = b := Finset.eq_of_subset_of_card_le hav hcard
            exact hnotsub a ha (this ▸ Finset.Subset.refl a)

theorem sorted_le_of_mergeSort (l : List Int) :
    (l.mergeSort (fun a b => decide (a ≤ b))).Pairwise (· ≤ ·) := by
  have h := @List.sorted_mergeSort Int (fun a b : Int => decide (a ≤ b))
    (fun a b c h1 h2 => by
      simp only [decide_eq_true_eq] at h1 h2 ⊢; omega)
    (fun a b => by
      by_cases h : a ≤ b
      · simp [h]
      · simp only [Bool.or_eq_true, decide_eq_true_eq]; omega) l
  exact h.imp (fun h => of_decide_eq_true h)

theorem sorted_card_of_mergeSort (l : List (Finset Int)) :
    (l.mergeSort (fun a b => decide (b.card ≤ a.card))).Pairwise
      (fun a b => b.card ≤ a.card) := by
  have h := @List.sorted_mergeSort (Finset Int)
    (fun a b : Finset Int => decide (b.card ≤ a.card))
    (fun a b c h1 h2 => by
      simp only [decide_eq_true_eq] at h1 h2 ⊢; omega)
    (fun a b => by
      by_cases h : b.card ≤ a.card
      · simp [h]
      · simp only [Bool.or_eq_true, decide_eq_true_eq]; omega) l
  exact h.imp (fun h => of_decide_eq_true h)

/-- Every input date appears in at least one returned window. -/
theorem date_windows_covers {dates : List Int} {wd : Int} {d : Int}
    (hd : d ∈ dates) : ∃ s ∈ date_windows dates wd, d ∈ s := by
  have hd' : d ∈ dates.mergeSort (fun a b => decide (a ≤ b)) :=
    List.mem_mergeSort.mpr hd
  obtain ⟨w, hw, hdw⟩ := windowsFrom_covers wd hd'
  have hw' : w ∈ (windowsFrom wd (dates.mergeSort (fun a b => decide (a ≤ b)))).mergeSort
      (fun a b => decide (b.card ≤ a.card)) := List.mem_mergeSort.mpr hw
  obtain ⟨k, hk, hsub⟩ := filterMaximal_covers [] hw'
  exact ⟨k, hk, hsub hdw⟩

/-- Two input dates at most `wd` apart lie together in some returned window. -/
theorem date_windows_pair {dates : List Int} {wd : Int} {d1 d2 : Int}
    (h1 : d1 ∈ dates) (h2 : d2 ∈ dates) (hle : d1 ≤ d2) (hsep : d2 - d1 ≤ wd) :
    ∃ s ∈ date_windows dates wd, d1 ∈ s ∧ d2 ∈ s := by
  have h1' : d1 ∈ dates.mergeSort (fun a b => decide (a ≤ b)) :=
    List.mem_mergeSort.mpr h1
  have h2' : d2 ∈ dates.mergeSort (fun a b => decide (a ≤ b)) :=
    List.mem_mergeSort.mpr h2
  obtain ⟨w, hw, hw1, hw2⟩ := windowsFrom_pair (sorted_le_of_mergeSort dates) h1' h2' hle hsep
  have hw' : w ∈ (windowsFrom wd (dates.mergeSort (fun a b => decide (a ≤ b)))).mergeSort
      (fun a b => decide (b.card ≤ a.card)) := List.mem_mergeSort.mpr hw
  obtain ⟨k, hk, hsub⟩ := filterMaximal_covers [] hw'
  exact ⟨k, hk, hsub hw1, hsub hw2⟩

/-- Every returned window spans at most `wd` days. -/
theorem date_windows_span {dates : List Int} {wd : Int} (hwd : 0 ≤ wd)
    {s : Finset Int} (hs : s ∈ date_windows dates wd) {x y : Int}
    (hx : x ∈ s) (hy : y ∈ s) : x - y ≤ wd := by
  rcases filterMaximal_subset hs with h | h
  · cases h
  · have h' : s ∈ windowsFrom wd (dates.mergeSort (fun a b => decide (a ≤ b))) :=
      List.mem_mergeSort.mp h
    exact windowsFrom_span hwd (sorted_le_of_mergeSort dates) h' hx hy

/-- No returned window is a subset of another returned window. -/
theorem date_windows_nosubset (dates : List Int) (wd : Int) :
    (date_windows dates wd).Pairwise NoMutualSubset := by
  refine filterMaximal_pairwise ?_ (List.Pairwise.nil)
  simpa using sorted_card_of_mergeSort
    (windowsFrom wd (dates.mergeSort (fun a b => decide (a ≤ b))))

/-! ### The constraint builder `solve` -/

/-- The division keys of `teams_by_division` in first-insertion order
(`collections.defaultdict` preserves insertion order of keys). -/
def divisionsInOrder (teams : List Team) : List Int :=
  teams.foldl (fun acc t => if t.division ∈ acc then acc else acc ++ [t.division]) []

/-- `teams_by_division.values()`: for each division in first-insertion
order, its teams in input order. -/
def teamsByDivision (teams : List Team) : List (List Team) :=
  (divisionsInOrder teams).map (fun d => teams.filter (fun t => t.division == d))

/-- `itertools.permutations(l, 2)`: ordered pairs of entries at distinct
positions, in positional order. -/
def perms2 (l : List Team) : List (Team × Team) :=
  (List.range l.length).flatMap (fun i =>
    ((List.range l.length).filter (fun j => j != i)).map (fun j =>
      (l.getD i default, l.getD j default)))

/-- All (home, away) pairs enumerated by the variable-construction loop,
in loop order. -/
def homePairs (params : Parameters) : List (Team × Team) :=
  (teamsByDivision params.teams).flatMap perms2

/-- A candidate decision variable is identified by its
`(fixture, date)` key, exactly the key of `vars_by_fixture_date`. -/
abbrev Cand := Fixture × Int

/-- The eligible dates of one (home, away) pair: every date of the home
club's home-date list that is not in the away club's unavailable list.
A missing home-dates entry is the source's `KeyError`. -/
def candsForPair (params : Parameters) (home away : Team) : Except String (List Cand) :=
  match mapGet params.home_dates home.club with
  | none => .error home.club
  | some ds =>
      .ok ((ds.filter (fun d =>
        !((mapGetD params.unavailable_away_dates away.club).contains d))).map
        (fun d => (⟨home, away⟩, d)))

/-- The variable-construction loop over the remaining pairs,
accumulating the variables created so far. -/
def buildVarsGo (params : Parameters) : List (Team × Team) → List Cand →
    Except String (List Cand)
  | [], acc => .ok acc
  | (h, a) :: rest, acc =>
      match candsForPair params h a with
      | .error e => .error e
      | .ok cs => buildVarsGo params rest (acc ++ cs)

/-- The full creation sequence of decision variables of `solve`, or the
club of the first `KeyError`. -/
def buildVars (params : Parameters) : Except String (List Cand) :=
  buildVarsGo params (homePairs params) []

/-- Deduplication keeping the first occurrence: the key order of a
Python dict filled by repeated insertion. -/
def dedupFirst {α : Type} [DecidableEq α] : List α → List α
  | [] => []
  | c :: l => c :: dedupFirst (l.filter (fun b => decide (b ≠ c)))
termination_by l => l.length
decreasing_by
  simpa using Nat.lt_succ_of_le (List.length_filter_le _ _)

/-- `vars_by_fixture.keys()`: the distinct fixtures having at least one
variable, in first-creation order. -/
def fixtureKeys (cands : List Cand) : List Fixture :=
  dedupFirst (cands.map Prod.fst)

/-- Teams having at least one variable (`vars_by_team_date.keys()`). -/
def teamKeys (cands : List Cand) : List Team :=
  dedupFirst (cands.flatMap (fun c => [c.1.home_team, c.1.away_team]))

/-- The distinct dates on which a team has at least one variable
(`vars_by_team_date[t].keys()`). -/
def teamDates (cands : List Cand) (t : Team) : List Int :=
  dedupFirst ((cands.filter (fun c =>
    decide (c.1.home_team = t ∨ c.1.away_team = t))).map Prod.snd)

/-- The (club, date) keys having at least one home variable
(`vars_by_club_home_date.keys()`). -/
def clubDateKeys (cands : List Cand) : List (String × Int) :=
  dedupFirst (cands.map (fun c => (c.1.home_team.club, c.2)))

/-- The number of occurrences of the variable of candidate `c` in the
list `vars_by_team_date[t][c.date]`: one for `c`'s home team, one for
its away team. -/
def teamWeight (t : Team) (c : Cand) : ℕ :=
  (if c.1.home_team = t then 1 else 0) + (if c.1.away_team = t then 1 else 0)

/-- The value of `cp_model.LinearExpr.Sum` of a group of variables under
assignment `f`: each variable index contributes its multiplicity in the
group (given by `w`) when assigned true. -/
def selSum (cands : List Cand) (f : Fin cands.length → Bool) (w : Cand → ℕ) : ℕ :=
  ∑ i : Fin cands.length, if f i then w (cands.get i) else 0

/-- The three constraint families added by `solve`:
1. each fixture with variables is scheduled exactly once;
2. each team plays at most one match in each of its rest windows;
3. each club hosts at most `max_concurrent_home_matches` matches per date. -/
def Satisfies (params : Parameters) (cands : List Cand)
    (f : Fin cands.length → Bool) : Prop :=
  (∀ fx ∈ fixtureKeys cands,
    selSum cands f (fun c => if c.1 = fx then 1 else 0) = 1) ∧
  (∀ t ∈ teamKeys cands,
    ∀ w ∈ date_windows (teamDates cands t) params.min_gap_days,
      selSum cands f (fun c => if c.2 ∈ w then teamWeight t c else 0) ≤ 1) ∧
  (∀ cd ∈ clubDateKeys cands,
    (selSum cands f (fun c => if c.1.home_team.club = cd.1 ∧ c.2 = cd.2 then 1 else 0) : ℤ)
      ≤ params.max_concurrent_home_matches)

instance decidableSatisfies (params : Parameters) (cands : List Cand)
    (f : Fin cands.length → Bool) : Decidable (Satisfies params cands f) := by
  unfold Satisfies
  exact inferInstance

/-- The number of true variables whose key is `key`. -/
def numTrue (cands : List Cand) (f : Fin cands.length → Bool) (key : Cand) : ℕ :=
  (Finset.univ.filter (fun i : Fin cands.length => f i ∧ cands.get i = key)).card

/-- The extraction loop: walk the keys of `vars_by_fixture_date` in
first-creation order, emitting one `ScheduledFixture` per true variable
of that key. -/
def extract (cands : List Cand) (f : Fin cands.length → Bool) : List ScheduledFixture :=
  (dedupFirst cands).flatMap (fun key =>
    List.replicate (numTrue cands f key) ⟨key.1, key.2⟩)

/-- `solve params` can return `r`: no `KeyError` during variable
construction, and the external solver (a complete satisfaction oracle,
spec §4.4) found an assignment satisfying all constraints whose true
variables extract to `r`. -/
def solveReturns (params : Parameters) (r : List ScheduledFixture) : Prop :=
  ∃ cands, buildVars params = Except.ok cands ∧
    ∃ f : Fin cands.length → Bool, Satisfies params cands f ∧ r = extract cands f

/-- `solve params` raises `ValueError("No solution found")`: variable
construction succeeded but no assignment satisfies the constraints. -/
def solveUnsat (params : Parameters) : Prop :=
  ∃ cands, buildVars params = Except.ok cands ∧
    ∀ f : Fin cands.length → Bool, ¬ Satisfies params cands f

/-! ### Helper lemmas about `dedupFirst`, `extract`, `selSum`, `buildVars` -/

theorem mem_dedupFirst {α : Type} [DecidableEq α] {l : List α} {a : α} :
    a ∈ dedupFirst l ↔ a ∈ l := by
  induction l using dedupFirst.induct with
  | case1 => simp [dedupFirst]
  | case2 c l ih =>
      rw [dedupFirst]
      simp only [List.mem_cons, ih, List.mem_filter, decide_eq_true_eq]
      constructor
      · rintro (rfl | ⟨h, _⟩)
        · exact Or.inl rfl
        · exact Or.inr h
      · rintro (rfl | h)
        · exact Or.inl rfl
        · by_cases hac : a = c
          · exact Or.inl hac
          · exact Or.inr ⟨h, hac⟩

theorem nodup_dedupFirst {α : Type} [DecidableEq α] (l : List α) :
    (dedupFirst l).Nodup := by
  induction l using dedupFirst.induct with
  | case1 => simp [dedupFirst]
  | case2 c l ih =>
      rw [dedupFirst]
      refine List.nodup_cons.mpr ⟨?_, ih⟩
      intro hc
      have := (List.mem_filter.mp (mem_dedupFirst.mp hc)).2
      simp at this

theorem toFinset_dedupFirst {α : Type} [DecidableEq α] (l : List α) :
    (dedupFirst l).toFinset = l.toFinset := by
  ext a
  simp [mem_dedupFirst]

/-- A scheduled fixture is in the extraction exactly when some true
variable carries its (fixture, date) key. -/
theorem mem_extract_iff {cands : List Cand} {f : Fin cands.length → Bool}
    {sf : ScheduledFixture} :
    sf ∈ extract cands f ↔
      ∃ i : Fin cands.length, f i ∧ cands.get i = (sf.fixture, sf.date) := by
  unfold extract
  rw [List.mem_flatMap]
  constructor
  · rintro ⟨key, hkey, hmem⟩
    obtain ⟨hne, rfl⟩ := List.mem_replicate.mp hmem
    have hnon : (Finset.univ.filter
        (fun i : Fin cands.length => f i ∧ cands.get i = key)).Nonempty :=
      Finset.card_ne_zero.mp hne
    obtain ⟨i, hi⟩ := hnon
    obtain ⟨hf, hkeyi⟩ := (Finset.mem_filter.mp hi).2
    exact ⟨i, hf, hkeyi⟩
  · rintro ⟨i, hf, hkey⟩
    refine ⟨cands.get i, mem_dedupFirst.mpr (List.get_mem cands i.1 i.2), ?_⟩
    rw [hkey]
    refine List.mem_replicate.mpr ⟨?_, rfl⟩
    rw [← hkey]
    refine Finset.card_ne_zero.mpr ⟨i, Finset.mem_filter.mpr ⟨Finset.mem_univ i, hf, rfl⟩⟩

theorem countP_flatMap {α β : Type} (l : List α) (g : α → List β) (p : β → Bool) :
    (l.flatMap g).countP p = (l.map (fun a => (g a).countP p)).sum := by
  induction l with
  | nil => simp
  | cons a t ih => simp [List.flatMap_cons, List.countP_append, ih]

/-- Counting in the extraction equals counting true variables whose key
satisfies the corresponding predicate. -/
theorem countP_extract (cands : List Cand) (f : Fin cands.length → Bool)
    (p : ScheduledFixture → Bool) :
    (extract cands f).countP p =
      (Finset.univ.filter (fun i : Fin cands.length =>
        f i ∧ p ⟨(cands.get i).1, (cands.get i).2⟩)).card := by
  unfold extract
  rw [countP_flatMap]
  have step1 : ((dedupFirst cands).map (fun key =>
      (List.replicate (numTrue cands f key)
        (⟨key.1, key.2⟩ : ScheduledFixture)).countP p)).sum =
      ((dedupFirst cands).map (fun key =>
        if p ⟨key.1, key.2⟩ then numTrue cands f key else 0)).sum := by
    congr 1
    exact List.map_congr_left (fun key _ => List.countP_replicate _ _ _)
  rw [step1]
  rw [← List.sum_toFinset _ (nodup_dedupFirst cands), toFinset_dedupFirst]
  rw [← Finset.sum_filter]
  rw [Finset.card_eq_sum_card_fiberwise
    (f := fun i : Fin cands.length => cands.get i)
    (t := cands.toFinset.filter (fun key => p ⟨key.1, key.2⟩))
    (fun i hi => by
      obtain ⟨_, hf, hp⟩ := Finset.mem_filter.mp hi
      exact Finset.mem_filter.mpr
        ⟨List.mem_toFinset.mpr (List.get_mem cands i.1 i.2), hp⟩)]
  refine Finset.sum_congr rfl ?_
  intro key hkey
  have hp : p ⟨key.1, key.2⟩ = true := (Finset.mem_filter.mp hkey).2
  unfold numTrue
  rw [Finset.filter_filter]
  congr 1
  apply Finset.filter_congr
  intro i _
  constructor
  · rintro ⟨hf, hkeyi⟩
    exact ⟨⟨hf, by rw [hkeyi]; exact hp⟩, hkeyi⟩
  · rintro ⟨⟨hf, _⟩, hkeyi⟩
    exact ⟨hf, hkeyi⟩

/-- A 0/1-weighted variable-group sum is the number of true variables
in the group. -/
theorem selSum_boole (cands : List Cand) (f : Fin cands.length → Bool)
    (q : Cand → Prop) [DecidablePred q] :
    selSum cands f (fun c => if q c then 1 else 0) =
      (Finset.univ.filter (fun i : Fin cands.length => f i ∧ q (cands.get i))).card := by
  unfold selSum
  rw [Finset.card_filter]
  refine Finset.sum_congr rfl ?_
  intro i _
  by_cases hf : f i <;> by_cases hq : q (cands.get i) <;> simp [hf, hq]

/-- Two distinct true variables with positive weight force a group sum
of at least 2. -/
theorem two_le_selSum {cands : List Cand} {f : Fin cands.length → Bool}
    {w : Cand → ℕ} {i1 i2 : Fin cands.length} (hne : i1 ≠ i2)
    (h1 : f i1) (h2 : f i2) (hw1 : 1 ≤ w (cands.get i1)) (hw2 : 1 ≤ w (cands.get i2)) :
    2 ≤ selSum cands f w := by
  unfold selSum
  have hpair : ∑ i ∈ ({i1, i2} : Finset (Fin cands.length)),
      (if f i then w (cands.get i) else 0) =
      (if f i1 then w (cands.get i1) else 0) +
      (if f i2 then w (cands.get i2) else 0) := by
    rw [Finset.sum_insert (by simpa using hne), Finset.sum_singleton]
  calc (2 : ℕ) ≤ (if f i1 then w (cands.get i1) else 0) +
      (if f i2 then w (cands.get i2) else 0) := by
        rw [if_pos h1, if_pos h2]; omega
    _ = ∑ i ∈ ({i1, i2} : Finset (Fin cands.length)),
        (if f i then w (cands.get i) else 0) := hpair.symm
    _ ≤ ∑ i : Fin cands.length, (if f i then w (cands.get i) else 0) :=
        Finset.sum_le_sum_of_subset (Finset.subset_univ _)

/-- Every candidate produced by the construction loop comes from an
eligible (home club date, not-blacklisted) combination. -/
theorem mem_buildVarsGo {params : Parameters} {pairs : List (Team × Team)}
    {acc cands : List Cand} (hok : buildVarsGo params pairs acc = Except.ok cands)
    {c : Cand} (hc : c ∈ cands) :
    c ∈ acc ∨ ∃ ds, mapGet params.home_dates c.1.home_team.club = some ds ∧
      c.2 ∈ ds ∧ c.2 ∉ mapGetD params.unavailable_away_dates c.1.away_team.club := by
  induction pairs generalizing acc with
  | nil =>
      simp only [buildVarsGo, Except.ok.injEq] at hok
      subst hok
      exact Or.inl hc
  | cons pair rest ih =>
      obtain ⟨h, a⟩ := pair
      rw [buildVarsGo] at hok
      rcases hcp : candsForPair params h a with e | cs
      · rw [hcp] at hok; cases hok
      · rw [hcp] at hok
        rcases ih hok with hacc | hprop
        · rcases List.mem_append.mp hacc with h' | h'
          · exact Or.inl h'
          · right
            unfold candsForPair at hcp
            rcases hmg : mapGet params.home_dates h.club with _ | ds
            · rw [hmg] at hcp; cases hcp
            · rw [hmg] at hcp
              simp only [Except.ok.injEq] at hcp
              subst hcp
              obtain ⟨d, hd, rfl⟩ := List.mem_map.mp h'
              obtain ⟨hds, hna⟩ := List.mem_filter.mp hd
              refine ⟨ds, hmg, hds, ?_⟩
              simpa using hna
        · exact Or.inr hprop

/-- Every candidate of `buildVars` is eligible. -/
theorem mem_buildVars {params : Parameters} {cands : List Cand}
    (hok : buildVars params = Except.ok cands) {c : Cand} (hc : c ∈ cands) :
    ∃ ds, mapGet params.home_dates c.1.home_team.club = some ds ∧
      c.2 ∈ ds ∧ c.2 ∉ mapGetD params.unavailable_away_dates c.1.away_team.club := by
  rcases mem_buildVarsGo hok hc with h | h
  · cases h
  · exact h

/-! ### Scheduled play and the rest-gap core argument -/

/-- Team `t` plays on date `d` in schedule `r` (as home or away). -/
def playsOn (r : List ScheduledFixture) (t : Team) (d : Int) : Prop :=
  ∃ sf ∈ r, sf.date = d ∧ (sf.fixture.home_team = t ∨ sf.fixture.away_team = t)

/-- Core of the rest invariant: a successful solve never schedules two
matches of one team on distinct dates at most `min_gap_days` apart,
because both dates would lie in one rest window whose variable sum is
capped at 1. -/
theorem rest_gap_core {params : Parameters} {r : List ScheduledFixture}
    (h : solveReturns params r) {t : Team} {d1 d2 : Int}
    (h1 : playsOn r t d1) (h2 : playsOn r t d2) (hlt : d1 < d2)
    (hsep : d2 - d1 ≤ params.min_gap_days) : False := by
  obtain ⟨cands, hok, f, hsat, rfl⟩ := h
  obtain ⟨sf1, hsf1, hd1, hteam1⟩ := h1
  obtain ⟨sf2, hsf2, hd2, hteam2⟩ := h2
  obtain ⟨i1, hf1, hget1⟩ := mem_extract_iff.mp hsf1
  obtain ⟨i2, hf2, hget2⟩ := mem_extract_iff.mp hsf2
  have hw1 : 1 ≤ teamWeight t (cands.get i1) := by
    rw [hget1]
    unfold teamWeight
    rcases hteam1 with h' | h' <;> simp [h']
  have hw2 : 1 ≤ teamWeight t (cands.get i2) := by
    rw [hget2]
    unfold teamWeight
    rcases hteam2 with h' | h' <;> simp [h']
  have hdate1 : (cands.get i1).2 = d1 := by rw [hget1]; exact hd1
  have hdate2 : (cands.get i2).2 = d2 := by rw [hget2]; exact hd2
  have hne : i1 ≠ i2 := by
    intro hi
    rw [hi, hdate2] at hdate1
    omega
  have htk : t ∈ teamKeys cands := by
    refine mem_dedupFirst.mpr (List.mem_flatMap.mpr ⟨cands.get i1,
      List.get_mem cands i1.1 i1.2, ?_⟩)
    rw [hget1]
    show t ∈ [sf1.fixture.home_team, sf1.fixture.away_team]
    rcases hteam1 with h' | h'
    · rw [← h']; exact List.mem_cons_self _ _
    · rw [← h']; exact List.mem_cons_of_mem _ (List.mem_cons_self _ _)
  have hmemdates : ∀ (i : Fin cands.length), (cands.get i).1.home_team = t ∨
      (cands.get i).1.away_team = t → (cands.get i).2 ∈ teamDates cands t := by
    intro i hi
    refine mem_dedupFirst.mpr (List.mem_map.mpr ⟨cands.get i, ?_, rfl⟩)
    refine List.mem_filter.mpr ⟨List.get_mem cands i.1 i.2, ?_⟩
    exact decide_eq_true hi
  have hmd1 : d1 ∈ teamDates cands t := by
    rw [← hdate1]
    refine hmemdates i1 ?_
    rw [hget1]; exact hteam1
  have hmd2 : d2 ∈ teamDates cands t := by
    rw [← hdate2]
    refine hmemdates i2 ?_
    rw [hget2]; exact hteam2
  obtain ⟨s, hs, hs1, hs2⟩ := date_windows_pair hmd1 hmd2 (le_of_lt hlt) hsep
  have hcap := hsat.2.1 t htk s hs
  have htwo : 2 ≤ selSum cands f
      (fun c => if c.2 ∈ s then teamWeight t c else 0) := by
    refine two_le_selSum hne hf1 hf2 ?_ ?_
    · rw [hdate1, if_pos hs1]; exact hw1
    · rw [hdate2, if_pos hs2]; exact hw2
  omega

/-! ### Concrete scenarios -/

/-- Team A of the two-team scenarios. -/
def tA : Team := ⟨1, "A", 1⟩

/-- Team B of the two-team scenarios. -/
def tB : Team := ⟨1, "B", 1⟩

/-- The impossible scenario of the spec and of
`test_simple_impossible_constraint`: A can only host on day 1 but B
cannot travel on day 1; B can only host on day 2 but A cannot travel on
day 2. -/
def impossibleParams : Parameters :=
  { teams := [tA, tB]
    home_dates := [("A", [1]), ("B", [2])]
    unavailable_away_dates := [("A", [2]), ("B", [1])]
    min_gap_days := 7
    max_concurrent_home_matches := 1 }

/-- A feasible two-team scenario: A hosts on day 0, B hosts on day 10,
no blackout dates. -/
def goodParams : Parameters :=
  { teams := [tA, tB]
    home_dates := [("A", [0]), ("B", [10])]
    unavailable_away_dates := []
    min_gap_days := 7
    max_concurrent_home_matches := 2 }

/-- The candidate variables of `goodParams`. -/
def goodCands : List Cand := [(⟨tA, tB⟩, 0), (⟨tB, tA⟩, 10)]

/-- The unique schedule of `goodParams`. -/
def goodResult : List ScheduledFixture := [⟨⟨tA, tB⟩, 0⟩, ⟨⟨tB, tA⟩, 10⟩]

theorem good_buildVars : buildVars goodParams = Except.ok goodCands := rfl

unseal List.merge List.mergeSort dedupFirst in
theorem good_satisfies : Satisfies goodParams goodCands (fun _ => true) := by decide

unseal List.merge List.mergeSort dedupFirst in
theorem good_extract : goodResult = extract goodCands (fun _ => true) := by decide

/-- The feasible scenario solves to its unique schedule. -/
theorem good_solveReturns : solveReturns goodParams goodResult :=
  ⟨goodCands, good_buildVars, fun _ => true, good_satisfies, good_extract⟩

instance decidablePlaysOn (r : List ScheduledFixture) (t : Team) (d : Int) :
    Decidable (playsOn r t d) := by
  unfold playsOn
  exact inferInstance

theorem dedupFirst_nil {α : Type} [DecidableEq α] : dedupFirst ([] : List α) = [] := by
  simp [dedupFirst]

/-- With no candidate variables there are no constraints at all: every
assignment is satisfying. -/
theorem satisfies_nil (params : Parameters) (f : Fin ([] : List Cand).length → Bool) :
    Satisfies params [] f := by
  refine ⟨?_, ?_, ?_⟩
  · intro fx hfx
    exact absurd (mem_dedupFirst.mp hfx) (List.not_mem_nil fx)
  · intro t ht
    exact absurd (mem_dedupFirst.mp ht) (List.not_mem_nil t)
  · intro cd hcd
    exact absurd (mem_dedupFirst.mp hcd) (List.not_mem_nil cd)

theorem extract_nil (f : Fin ([] : List Cand).length → Bool) : extract [] f = [] := by
  unfold extract
  rw [dedupFirst_nil]
  rfl

/-- In the impossible scenario every candidate date is blacklisted, so
no variable is ever created. -/
theorem impossible_buildVars : buildVars impossibleParams = Except.ok [] := rfl

/-- `solve` on the impossible scenario succeeds with the empty schedule:
with no variables there are no constraints, and the trivial assignment
satisfies the (empty) model. -/
theorem impossible_solveReturns_empty : solveReturns impossibleParams [] :=
  ⟨[], impossible_buildVars, fun _ => false, satisfies_nil _ _, (extract_nil _).symm⟩

/-- C1, counterexample.  In the two-team scenario where A can host only
on day 1 (blacklisted for B) and B only on day 2 (blacklisted for A),
`solve` does NOT fail with Unsatisfiable: it returns successfully, and
returns precisely the empty collection of ScheduledFixtures.  (This is
exactly what `test_simple_impossible_constraint` asserts.) -/
theorem c1_counterexample :
    solveReturns impossibleParams [] ∧ ¬ solveUnsat impossibleParams := by
  refine ⟨impossible_solveReturns_empty, ?_⟩
  rintro ⟨cands, hok, hall⟩
  rw [impossible_buildVars] at hok
  injection hok with hcands
  subst hcands
  exact hall (fun _ => false) (satisfies_nil _ _)

/-- C1, amended.  On the impossible two-team scenario the fixtures
A-vs-B and B-vs-A each have zero eligible dates, so no variables and no
constraints are created and `solve` returns successfully with exactly
the empty collection (rather than raising Unsatisfiable). -/
theorem c1_amended : ∀ r, solveReturns impossibleParams r ↔ r = [] := by
  intro r
  constructor
  · rintro ⟨cands, hok, f, hsat, rfl⟩
    rw [impossible_buildVars] at hok
    injection hok with hcands
    subst hcands
    exact extract_nil f
  · rintro rfl
    exact impossible_solveReturns_empty

/-- C1, amended witness: the amended equivalence applied at the empty
schedule. -/
theorem c1_amended_witness : solveReturns impossibleParams [] :=
  (c1_amended []).mpr rfl

/-- C4.  In every successful solve, a team never plays two matches on
distinct dates closer together than `min_gap_days`: dates within the
gap would share a rest window whose variables sum to at most 1. -/
theorem c4_rest_invariant {params : Parameters} {r : List ScheduledFixture}
    (h : solveReturns params r) (t : Team) (d1 d2 : Int)
    (h1 : playsOn r t d1) (h2 : playsOn r t d2) (hlt : d1 < d2) :
    params.min_gap_days ≤ d2 - d1 := by
  by_contra hc
  exact rest_gap_core h h1 h2 hlt (by omega)

/-- C4, witness: in the feasible two-team scenario team A plays on day 0
and day 10, and indeed `min_gap_days = 7 ≤ 10 - 0`. -/
theorem c4_rest_invariant_witness : goodParams.min_gap_days ≤ 10 - 0 :=
  @c4_rest_invariant goodParams goodResult good_solveReturns tA 0 10
    (by decide) (by decide) (by decide)

/-- C9.  The produced schedules satisfy the strictly stronger bound:
two distinct play dates of one team differ by at least
`min_gap_days + 1` days (a pair exactly `min_gap_days` apart would
still share a rest window). -/
theorem c9_rest_strict {params : Parameters} {r : List ScheduledFixture}
    (hgap : 0 ≤ params.min_gap_days) (h : solveReturns params r)
    (t : Team) (d1 d2 : Int) (h1 : playsOn r t d1) (h2 : playsOn r t d2)
    (hlt : d1 < d2) : params.min_gap_days + 1 ≤ d2 - d1 := by
  by_contra hc
  exact rest_gap_core h h1 h2 hlt (by omega)

/-- C9, witness: in the feasible two-team scenario, `7 + 1 ≤ 10 - 0`. -/
theorem c9_rest_strict_witness : goodParams.min_gap_days + 1 ≤ 10 - 0 :=
  @c9_rest_strict goodParams goodResult (by decide) good_solveReturns tA 0 10
    (by decide) (by decide) (by decide)

/-- C7.  Every scheduled fixture of a successful solve is on a date
drawn from the home club's candidate home dates and absent from the
away club's unavailable away dates, because variables are only created
for such combinations. -/
theorem c7_dates_eligible {params : Parameters} {r : List ScheduledFixture}
    (h : solveReturns params r) {sf : ScheduledFixture} (hsf : sf ∈ r) :
    (∃ ds, mapGet params.home_dates sf.fixture.home_team.club = some ds ∧
      sf.date ∈ ds) ∧
    sf.date ∉ mapGetD params.unavailable_away_dates sf.fixture.away_team.club := by
  obtain ⟨cands, hok, f, hsat, rfl⟩ := h
  obtain ⟨i, hf, hget⟩ := mem_extract_iff.mp hsf
  have hc := mem_buildVars hok (List.get_mem cands i.1 i.2)
  rw [hget] at hc
  obtain ⟨ds, hds, hmem, hna⟩ := hc
  exact ⟨⟨ds, hds, hmem⟩, hna⟩

/-- C7, witness: applied to the feasible two-team scenario's first
scheduled fixture. -/
theorem c7_dates_eligible_witness :
    (∃ ds, mapGet goodParams.home_dates tA.club = some ds ∧ (0 : Int) ∈ ds) ∧
    (0 : Int) ∉ mapGetD goodParams.unavailable_away_dates tB.club :=
  @c7_dates_eligible goodParams goodResult good_solveReturns ⟨⟨tA, tB⟩, 0⟩
    (by decide)

/-- C10.  With an empty teams collection no pairs, variables or
constraints exist, so `solve` succeeds and returns the empty collection
for every choice of the mappings and integer parameters. -/
theorem c10_empty_teams (hd ua : List (String × List Int)) (g m : Int) :
    solveReturns ⟨[], hd, ua, g, m⟩ [] ∧
      (∀ r, solveReturns ⟨[], hd, ua, g, m⟩ r → r = []) ∧
      ¬ solveUnsat ⟨[], hd, ua, g, m⟩ := by
  have hbv : buildVars ⟨[], hd, ua, g, m⟩ = Except.ok [] := rfl
  refine ⟨⟨[], hbv, fun _ => false, satisfies_nil _ _, (extract_nil _).symm⟩, ?_, ?_⟩
  · rintro r ⟨cands, hok, f, hsat, rfl⟩
    rw [hbv] at hok
    injection hok with hcands
    subst hcands
    exact extract_nil f
  · rintro ⟨cands, hok, hall⟩
    rw [hbv] at hok
    injection hok with hcands
    subst hcands
    exact hall (fun _ => false) (satisfies_nil _ _)

/-- C10, witness: the empty-teams theorem applied at concrete mappings
and parameters. -/
theorem c10_empty_teams_witness :
    solveReturns ⟨[], [("A", [1])], [("B", [2])], 7, 2⟩ [] :=
  (c10_empty_teams [("A", [1])] [("B", [2])] 7 2).1

/-- C5.  Any two input dates at most `window_days` apart share a
returned window, and consequently any selection of input dates meeting
every returned window at most once has all its pairs more than
`window_days` apart. -/
theorem c5_window_pair_cover (dates : List Int) (window_days : Int)
    (hwd : 0 ≤ window_days) :
    (∀ d1 ∈ dates, ∀ d2 ∈ dates, d1 ≤ d2 → d2 - d1 ≤ window_days →
      ∃ s ∈ date_windows dates window_days, d1 ∈ s ∧ d2 ∈ s) ∧
    (∀ sel : Finset Int, (∀ d ∈ sel, d ∈ dates) →
      (∀ s ∈ date_windows dates window_days,
        (sel.filter (fun d => d ∈ s)).card ≤ 1) →
      ∀ d1 ∈ sel, ∀ d2 ∈ sel, d1 < d2 → window_days + 1 ≤ d2 - d1) := by
  constructor
  · intro d1 h1 d2 h2 hle hsep
    exact date_windows_pair h1 h2 hle hsep
  · intro sel hsub hcap d1 h1 d2 h2 hlt
    by_contra hc
    obtain ⟨s, hs, hs1, hs2⟩ :=
      date_windows_pair (hsub d1 h1) (hsub d2 h2) (le_of_lt hlt)
        (show d2 - d1 ≤ window_days by omega)
    have hpair : ({d1, d2} : Finset Int) ⊆ sel.filter (fun d => d ∈ s) := by
      intro x hx
      rcases Finset.mem_insert.mp hx with rfl | hx
      · exact Finset.mem_filter.mpr ⟨h1, hs1⟩
      · rw [Finset.mem_singleton] at hx
        subst hx
        exact Finset.mem_filter.mpr ⟨h2, hs2⟩
    have h2le : 2 ≤ (sel.filter (fun d => d ∈ s)).card := by
      calc 2 = ({d1, d2} : Finset Int).card := by
            rw [Finset.card_insert_of_not_mem
              (by simp only [Finset.mem_singleton]; omega), Finset.card_singleton]
        _ ≤ _ := Finset.card_le_card hpair
    have := hcap s hs
    omega

/-- C5, witness: days 0 and 3 with a 5-day window share a returned
window. -/
theorem c5_window_pair_cover_witness :
    ∃ s ∈ date_windows [0, 3] 5, (0 : Int) ∈ s ∧ (3 : Int) ∈ s :=
  (c5_window_pair_cover [0, 3] 5 (by decide)).1 0 (by decide) 3 (by decide)
    (by decide) (by decide)

/-- C6.  The window partitioner covers every input date, every returned
window spans at most `window_days`, and no returned window is a subset
of another. -/
theorem c6_window_output (dates : List Int) (window_days : Int)
    (hwd : 0 ≤ window_days) :
    (∀ d ∈ dates, ∃ s ∈ date_windows dates window_days, d ∈ s) ∧
    (∀ s ∈ date_windows dates window_days, ∀ x ∈ s, ∀ y ∈ s,
      x - y ≤ window_days) ∧
    List.Pairwise NoMutualSubset (date_windows dates window_days) := by
  refine ⟨?_, ?_, date_windows_nosubset dates window_days⟩
  · intro d hd
    exact date_windows_covers hd
  · intro s hs x hx y hy
    exact date_windows_span hwd hs hx hy

/-- C6, witness: the three properties instantiated on the single-date
input with a zero-day window. -/
theorem c6_window_output_witness :
    ∃ s ∈ date_windows [1] 0, (1 : Int) ∈ s :=
  (c6_window_output [1] 0 (by decide)).1 1 (by decide)

/-! ### Scenarios for the configuration-validation and capacity claims -/

/-- A two-team scenario with a negative `min_gap_days`. -/
def negGapParams : Parameters :=
  { teams := [tA, tB]
    home_dates := [("A", [0]), ("B", [1])]
    unavailable_away_dates := []
    min_gap_days := -1
    max_concurrent_home_matches := 2 }

/-- The candidate variables of `negGapParams`. -/
def negGapCands : List Cand := [(⟨tA, tB⟩, 0), (⟨tB, tA⟩, 1)]

/-- The schedule found for `negGapParams`: back-to-back days, allowed
because the negative gap produces only singleton rest windows. -/
def negGapResult : List ScheduledFixture := [⟨⟨tA, tB⟩, 0⟩, ⟨⟨tB, tA⟩, 1⟩]

unseal List.merge List.mergeSort dedupFirst in
theorem negGap_satisfies : Satisfies negGapParams negGapCands (fun _ => true) := by
  decide

unseal List.merge List.mergeSort dedupFirst in
theorem negGap_extract : negGapResult = extract negGapCands (fun _ => true) := by
  decide

/-- `solve` accepts the negative `min_gap_days` and succeeds. -/
theorem negGap_solveReturns : solveReturns negGapParams negGapResult :=
  ⟨negGapCands, rfl, fun _ => true, negGap_satisfies, negGap_extract⟩

/-- Two teams whose division has a club with no home-dates entry. -/
def missingParams : Parameters :=
  { teams := [tA, tB]
    home_dates := [("B", [2])]
    unavailable_away_dates := []
    min_gap_days := 7
    max_concurrent_home_matches := 2 }

/-- Empty teams together with a negative host capacity. -/
def negCapParams : Parameters :=
  { teams := []
    home_dates := []
    unavailable_away_dates := []
    min_gap_days := 7
    max_concurrent_home_matches := -1 }

/-- With a negative `window_days` every window of the sorted tail is cut
off immediately, so every candidate (and hence every returned) window is
a singleton. -/
theorem windowsFrom_neg {wd : Int} (hwd : wd < 0) {l : List Int}
    (hl : l.Pairwise (· ≤ ·)) {s : Finset Int} (hs : s ∈ windowsFrom wd l) :
    ∃ d ∈ l, s = {d} := by
  induction l with
  | nil => cases hs
  | cons a t ih =>
      rcases List.mem_cons.mp hs with rfl | hst
      · refine ⟨a, List.mem_cons_self _ _, ?_⟩
        have htw : t.takeWhile (fun x => decide (x - a ≤ wd)) = [] := by
          cases t with
          | nil => rfl
          | cons x xs =>
              refine List.takeWhile_cons_of_neg ?_
              have hax : a ≤ x := (List.pairwise_cons.mp hl).1 x (List.mem_cons_self _ _)
              simp only [decide_eq_true_eq]
              omega
        rw [htw]
        rfl
      · obtain ⟨d, hd, hsd⟩ := ih (List.pairwise_cons.mp hl).2 hst
        exact ⟨d, List.mem_cons_of_mem _ hd, hsd⟩

unseal List.merge List.mergeSort dedupFirst in
/-- C3, counterexample.  `solve` performs no configuration validation:
on a `Parameters` with `min_gap_days = -1` it raises no Configuration
error and succeeds, and `date_windows` with a negative `window_days`
raises no error either, returning singleton windows. -/
theorem c3_counterexample :
    negGapParams.min_gap_days < 0 ∧ solveReturns negGapParams negGapResult ∧
      date_windows [0, 5] (-1) = [{0}, {5}] :=
  ⟨by decide, negGap_solveReturns, by decide⟩

/-- C3, amended.  The code performs no fail-fast configuration checks:
a negative `window_days` is accepted by `date_windows` (every returned
window is a singleton), a missing home-dates entry surfaces only as a
`KeyError` (carrying the club) during variable construction, and a
negative `min_gap_days` is accepted by `solve`, which can succeed. -/
theorem c3_amended :
    (∀ (dates : List Int) (w : Int), w < 0 →
      ∀ s ∈ date_windows dates w, ∃ d ∈ dates, s = {d}) ∧
    buildVars missingParams = Except.error "A" ∧
    solveReturns negGapParams negGapResult := by
  refine ⟨?_, rfl, negGap_solveReturns⟩
  intro dates w hw s hs
  rcases filterMaximal_subset hs with h | h
  · cases h
  · have h' : s ∈ windowsFrom w (dates.mergeSort (fun a b => decide (a ≤ b))) :=
      List.mem_mergeSort.mp h
    obtain ⟨d, hd, hsd⟩ := windowsFrom_neg hw (sorted_le_of_mergeSort dates) h'
    exact ⟨d, List.mem_mergeSort.mp hd, hsd⟩

unseal List.merge List.mergeSort in
/-- C3, amended witness: the singleton-window property applied at a
concrete negative window size. -/
theorem c3_amended_witness : ∃ d ∈ [(3 : Int)], ({3} : Finset Int) = {d} :=
  c3_amended.1 [3] (-2) (by decide) {3} (by decide)

/-- C8, counterexample.  Host capacity is only constrained for
(club, date) pairs that actually carry candidate variables.  With an
empty teams collection and a negative `max_concurrent_home_matches`,
`solve` succeeds with the empty schedule, yet the claimed bound
`count ≤ max_concurrent_home_matches` fails for any club and date,
since `0 ≤ -1` is false. -/
theorem c8_counterexample :
    solveReturns negCapParams [] ∧
    ¬ (((([] : List ScheduledFixture).countP
        (fun sf => decide (sf.fixture.home_team.club = "A" ∧ sf.date = 0))) : ℤ)
      ≤ negCapParams.max_concurrent_home_matches) := by
  constructor
  · exact ⟨[], rfl, fun _ => false, satisfies_nil _ _, (extract_nil _).symm⟩
  · decide

/-- C8, amended.  For a non-negative configured capacity, every
successful solve schedules at most `max_concurrent_home_matches` home
fixtures per club per date: for (club, date) pairs with candidate
variables this is the capacity constraint, and all other pairs host
zero fixtures. -/
theorem c8_amended {params : Parameters} {r : List ScheduledFixture}
    (hm : 0 ≤ params.max_concurrent_home_matches) (h : solveReturns params r)
    (club : String) (d : Int) :
    ((r.countP (fun sf => decide (sf.fixture.home_team.club = club ∧ sf.date = d))) : ℤ)
      ≤ params.max_concurrent_home_matches := by
  obtain ⟨cands, hok, f, hsat, rfl⟩ := h
  have hcount : (extract cands f).countP
      (fun sf => decide (sf.fixture.home_team.club = club ∧ sf.date = d)) =
      (Finset.univ.filter (fun i : Fin cands.length =>
        f i ∧ ((cands.get i).1.home_team.club = club ∧ (cands.get i).2 = d))).card := by
    rw [countP_extract]
    congr 1
    apply Finset.filter_congr
    intro i _
    simp
  rw [hcount]
  by_cases hk : (club, d) ∈ clubDateKeys cands
  · have hcap := hsat.2.2 (club, d) hk
    rw [selSum_boole] at hcap
    exact hcap
  · have hF0 : (Finset.univ.filter (fun i : Fin cands.length =>
        f i ∧ ((cands.get i).1.home_team.club = club ∧ (cands.get i).2 = d))) = ∅ := by
      rw [Finset.eq_empty_iff_forall_not_mem]
      intro i hi
      obtain ⟨-, hclub, hdate⟩ := (Finset.mem_filter.mp hi).2
      refine hk (mem_dedupFirst.mpr (List.mem_map.mpr
        ⟨cands.get i, List.get_mem cands i.1 i.2, ?_⟩))
      rw [hclub, hdate]
    rw [hF0]
    simpa using hm

/-- C8, amended witness: in the feasible two-team scenario club A hosts
one match on day 0, within the capacity of 2. -/
theorem c8_amended_witness :
    ((goodResult.countP
      (fun sf => decide (sf.fixture.home_team.club = "A" ∧ sf.date = 0))) : ℤ)
      ≤ goodParams.max_concurrent_home_matches :=
  @c8_amended goodParams goodResult (by decide) good_solveReturns "A" 0

/-- C2, counterexample.  In the impossible two-team scenario `solve`
returns successfully with the empty collection, yet (tA, tB) is an
ordered pair of distinct teams sharing a division with no
ScheduledFixture in the result: fixtures with zero eligible dates get
no coverage constraint and are silently dropped. -/
theorem c2_counterexample :
    solveReturns impossibleParams [] ∧ tA.division = tB.division ∧ tA ≠ tB ∧
      (([] : List ScheduledFixture).countP
        (fun sf => decide (sf.fixture = ⟨tA, tB⟩)) = 0) :=
  ⟨impossible_solveReturns_empty, by decide, by decide, rfl⟩

/-- C2, amended.  A successful solve contains exactly one
ScheduledFixture for every fixture possessing at least one candidate
variable (at least one eligible date), and none for the others; hence
the output size equals the number of fixtures with at least one
eligible date. -/
theorem c2_amended {params : Parameters} {r : List ScheduledFixture}
    (h : solveReturns params r) {cands : List Cand}
    (hok : buildVars params = Except.ok cands) :
    (∀ fx : Fixture, r.countP (fun sf => decide (sf.fixture = fx)) =
      if fx ∈ fixtureKeys cands then 1 else 0) ∧
    r.length = (fixtureKeys cands).length := by
  obtain ⟨cands', hok', f, hsat, rfl⟩ := h
  rw [hok] at hok'
  injection hok' with hc
  subst hc
  have hcount : ∀ fx : Fixture,
      (extract cands f).countP (fun sf => decide (sf.fixture = fx)) =
      (Finset.univ.filter (fun i : Fin cands.length =>
        f i ∧ (cands.get i).1 = fx)).card := by
    intro fx
    rw [countP_extract]
    congr 1
    apply Finset.filter_congr
    intro i _
    simp
  have hone : ∀ fx ∈ fixtureKeys cands,
      (Finset.univ.filter (fun i : Fin cands.length =>
        f i ∧ (cands.get i).1 = fx)).card = 1 := by
    intro fx hfx
    have hcov := hsat.1 fx hfx
    rw [selSum_boole] at hcov
    exact hcov
  have hzero : ∀ fx : Fixture, fx ∉ fixtureKeys cands →
      (Finset.univ.filter (fun i : Fin cands.length =>
        f i ∧ (cands.get i).1 = fx)).card = 0 := by
    intro fx hfx
    rw [Finset.card_eq_zero, Finset.eq_empty_iff_forall_not_mem]
    intro i hi
    obtain ⟨-, -, hfix⟩ := Finset.mem_filter.mp hi
    exact hfx (mem_dedupFirst.mpr (List.mem_map.mpr
      ⟨cands.get i, List.get_mem cands i.1 i.2, hfix⟩))
  constructor
  · intro fx
    rw [hcount fx]
    by_cases hfx : fx ∈ fixtureKeys cands
    · rw [if_pos hfx]
      exact hone fx hfx
    · rw [if_neg hfx]
      exact hzero fx hfx
  · have hlen1 : (extract cands f).length =
        (extract cands f).countP (fun _ => true) :=
      (List.countP_eq_length.mpr (fun _ _ => rfl)).symm
    rw [hlen1, countP_extract]
    have hfil : (Finset.univ.filter (fun i : Fin cands.length =>
        f i ∧ ((fun _ : ScheduledFixture => true)
          (⟨(cands.get i).1, (cands.get i).2⟩ : ScheduledFixture) : Bool))) =
        Finset.univ.filter (fun i : Fin cands.length => f i = true) := by
      apply Finset.filter_congr
      intro i _
      simp
    rw [hfil]
    rw [Finset.card_eq_sum_card_fiberwise
      (f := fun i : Fin cands.length => (cands.get i).1)
      (t := (fixtureKeys cands).toFinset)
      (fun i hi => by
        have hf : f i = true := (Finset.mem_filter.mp hi).2
        exact List.mem_toFinset.mpr (mem_dedupFirst.mpr (List.mem_map.mpr
          ⟨cands.get i, List.get_mem cands i.1 i.2, rfl⟩)))]
    have hfiber : ∀ fx ∈ (fixtureKeys cands).toFinset,
        ((Finset.univ.filter (fun i : Fin cands.length => f i = true)).filter
          (fun i => (cands.get i).1 = fx)).card = 1 := by
      intro fx hfx
      rw [Finset.filter_filter]
      exact hone fx (List.mem_toFinset.mp hfx)
    rw [Finset.sum_congr rfl hfiber]
    rw [← Finset.card_eq_sum_ones]
    exact List.toFinset_card_of_nodup (nodup_dedupFirst _)

/-- C2, amended witness: the feasible two-team scenario schedules its
fixture A-vs-B exactly once and has as many fixtures as there are
fixtures with candidates. -/
theorem c2_amended_witness :
    (goodResult.countP (fun sf => decide (sf.fixture = ⟨tA, tB⟩)) =
      if (⟨tA, tB⟩ : Fixture) ∈ fixtureKeys goodCands then 1 else 0) ∧
    goodResult.length = (fixtureKeys goodCands).length :=
  ⟨(c2_amended good_solveReturns good_buildVars).1 ⟨tA, tB⟩,
    (c2_amended good_solveReturns good_buildVars).2⟩

end Fixtures
